import Mathlib

/-!
Shallow embedding of the warcraftlogs-discord-bot core (Go) in Lean 4.

The embedding follows the Go sources:
  * `watcher/watcher.go` : change detection (`checkChanges`), update emission
    (`sendUpdate`), report pre-filtering (`deleteNonRaid`), and the watch
    supervisor (`Watch` / `Unwatch`).
  * the `warcraftlogs` client : token lifecycle (`ensureToken`,
    `refreshToken`), GraphQL execution with a single 401 retry (`gql`),
    paginated death-event fetching (`getDeathEvents`) and leaderboard
    aggregation (`TopDeathsForReport`).

Go slices become `List`, machine integers become `Int`/`Nat`, fallible calls
become `Except`/`Option`, and network responses become explicit parameters.
`sort.SliceStable` is modelled by `List.insertionSort` (which inserts each
element before the first element it is `≼`-related to, hence is stable), and
`sort.Slice` by the same function (Go guarantees only some sorted permutation;
insertion sort is one such refinement).
-/

namespace WLBot

/-- Difficulty metadata of a zone, from the `Difficulty` struct. -/
structure Difficulty where
  Name : String
  Sizes : List Int
deriving DecidableEq, Repr

/-- Zone metadata of a report, from the `Zone` struct. -/
structure Zone where
  Name : String
  Difficulties : List Difficulty
deriving DecidableEq, Repr

/-- A report listed by the service, from the `Report` struct
(`Owner` flattened to the owner name, which is its only field). -/
structure Report where
  Code : String
  Title : String
  StartTime : Int
  EndTime : Int
  OwnerName : String
  Zone : Zone
deriving DecidableEq, Repr

/-- One leaderboard entry, from the `PlayerTop` struct. -/
structure PlayerTop where
  Name : String
  Value : Nat
deriving DecidableEq, Repr

/-- Result of `TopDeathsForReport`, from the `ReportDetails` struct. -/
structure ReportDetails where
  TopDeaths : List PlayerTop
  TopFirstDeaths : List PlayerTop
deriving DecidableEq, Repr

/-- Target of a death event (`target` object of the events payload). -/
structure DeathTarget where
  Name : String
  Server : String
deriving DecidableEq, Repr

/-- A parsed death event, from the `DeathEvent` struct (`EvType` models the
Go field `Type`, unusable as a Lean field name). -/
structure DeathEvent where
  Timestamp : Int
  EvType : String
  Target : DeathTarget
deriving DecidableEq, Repr

/-! Section: Report pre-filter (`deleteNonRaid`, watcher.go) -/

/-- The keep-condition of `deleteNonRaid`'s inner loop: some difficulty is
named "Mythic" with exactly one raid size equal to 20. -/
def isMythic20 (r : Report) : Bool :=
  r.Zone.Difficulties.any fun d =>
    decide (d.Name = "Mythic") && decide (d.Sizes.length = 1)
      && decide (d.Sizes.headD 0 = 20)

/-- Model of `deleteNonRaid`: removes, via `slices.DeleteFunc`, every report for which
no difficulty matches the Mythic/size-20 condition, i.e. it keeps exactly the
matching reports. -/
def deleteNonRaid (reports : List Report) : List Report :=
  reports.filter fun r => !(!(isMythic20 r))

/-! Section: Watch supervisor (`Watch` / `Unwatch`, watcher.go)

The `sync.Map` keyed by server id and storing cancellation handles is
modelled by the list of currently stored keys, together with event logs
recording loop starts (the `go w.watchLoop(...)` side effect) and
invocations of stored cancellation handles. -/

/-- Supervisor state: stored keys of the `watched` map plus side-effect logs. -/
structure WatcherState where
  watched : List String
  loopStarts : List String
  cancelCalls : List String
deriving DecidableEq, Repr

/-- Model of `Watch`: `LoadOrStore` on the `watched` map; only when the key was not
yet present is a watch loop started. -/
def Watch (s : WatcherState) (serverId : String) : WatcherState :=
  if serverId ∈ s.watched then s
  else
    { watched := serverId :: s.watched
      loopStarts := s.loopStarts ++ [serverId]
      cancelCalls := s.cancelCalls }

/-- Model of `Unwatch`: `LoadAndDelete` on the `watched` map; the stored cancellation
handle is invoked only when the key was present. -/
def Unwatch (s : WatcherState) (serverId : String) : WatcherState :=
  if serverId ∈ s.watched then
    { watched := s.watched.erase serverId
      loopStarts := s.loopStarts
      cancelCalls := s.cancelCalls ++ [serverId] }
  else s

/-! Section: Token lifecycle (`ensureToken` / `refreshToken`, warcraftlogs client)

Time is an `Int` count of seconds; the credential exchange (`getToken`) is a
parameter returning either an error or a token/expiry pair.  Each operation
returns its result, the client's token state afterwards, and how many
credential-exchange requests it performed. -/

/-- Shared token state of the client (`token`, `expiresAt`). -/
structure TokenState where
  token : String
  expiresAt : Int
deriving DecidableEq, Repr

/-- The freshness condition checked by both `ensureToken` and
`refreshToken`: token non-empty and `time.Now().Add(tokenSkew)` (60 s)
strictly before the expiry instant. -/
def tokenFresh (now : Int) (st : TokenState) : Bool :=
  !(decide (st.token = "")) && decide (now + 60 < st.expiresAt)

/-- Model of `refreshToken`: under the write lock, re-check freshness; if stale,
perform the credential exchange, returning its error unretried, otherwise
store the new token and expiry. -/
def refreshToken (now : Int) (st : TokenState)
    (exchange : Except String (String × Int)) :
    Except String Unit × TokenState × Nat :=
  if tokenFresh now st then (Except.ok (), st, 0)
  else
    match exchange with
    | Except.error e => (Except.error e, st, 1)
    | Except.ok (t, e) => (Except.ok (), ⟨t, e⟩, 1)

/-- Model of `ensureToken`: under a read lock, return immediately when the token is
fresh; otherwise escalate to `refreshToken`. -/
def ensureToken (now : Int) (st : TokenState)
    (exchange : Except String (String × Int)) :
    Except String Unit × TokenState × Nat :=
  if tokenFresh now st then (Except.ok (), st, 0)
  else refreshToken now st exchange

/-! Section: GraphQL execution (`gql`, warcraftlogs client)

HTTP traffic is a parameter: each `doOnce` call either fails at the
transport level or yields a status code, raw body and decoded envelope.
`gql` returns the caller-visible result together with the number of HTTP
requests it issued. -/

/-- Decoded GraphQL envelope (`gqlEnvelope`): application-level error
messages and the raw `data` payload as a string (`""` models absent data). -/
structure GqlEnvelope where
  errors : List String
  rawData : String
deriving DecidableEq, Repr

/-- Outcome of one `doOnce` HTTP round trip. -/
inductive HTTPResult where
  | transportErr (msg : String)
  | response (status : Nat) (body : String) (env : GqlEnvelope)
deriving DecidableEq, Repr

/-- The post-processing of a transport-successful response in `gql`:
`resp.IsError()` (status ≥ 400) is a failure; otherwise application-level
errors surface the first message; otherwise a nil out-pointer or an empty or
null data payload is "graphql: empty data"; otherwise the result of
`json.Unmarshal` (a parameter) is returned. -/
def finishResp (status : Nat) (body : String) (env : GqlEnvelope)
    (outNil : Bool) (unmarshalErr : Option String) : Except String Unit :=
  if 400 ≤ status then
    Except.error ("graphql " ++ toString status ++ ": " ++ body)
  else
    match env.errors with
    | e :: _ => Except.error ("graphql error: " ++ e)
    | [] =>
      if outNil || decide (env.rawData = "") || decide (env.rawData = "null") then
        Except.error "graphql: empty data"
      else
        match unmarshalErr with
        | some e => Except.error e
        | none => Except.ok ()

/-- Model of `gql`: ensure a token, issue one request, retry exactly once after a
forced refresh when the first response has status 401, then post-process
whichever response stands.  The `Nat` component counts issued requests. -/
def gql (ensureErr : Option String) (refreshErr : Option String)
    (resp1 resp2 : HTTPResult) (outNil : Bool) (unmarshalErr : Option String) :
    Except String Unit × Nat :=
  match ensureErr with
  | some e => (Except.error e, 0)
  | none =>
    match resp1 with
    | HTTPResult.transportErr e => (Except.error e, 1)
    | HTTPResult.response st1 body1 env1 =>
      if st1 = 401 then
        match refreshErr with
        | some e => (Except.error ("token refresh after 401 failed: " ++ e), 1)
        | none =>
          match resp2 with
          | HTTPResult.transportErr e => (Except.error e, 2)
          | HTTPResult.response st2 body2 env2 =>
            (finishResp st2 body2 env2 outNil unmarshalErr, 2)
      else (finishResp st1 body1 env1 outNil unmarshalErr, 1)

/-! Section: Change detector (`checkChanges` / `sendUpdate`, watcher.go)

One iteration of the per-report loop of `checkChanges` is modelled by
`processReport`.  Time is an `Int` count of milliseconds.  The
`TopDeathsForReport` network fetch is abstracted to a success flag (its
payload does not influence control flow), and the cycle context to a
cancellation flag consulted by `sendUpdate`. -/

/-- Cache entry of the report-state cache, from the `CachedReport` struct. -/
structure CachedReport where
  code : String
  endTime : Int
  isLive : Bool
deriving DecidableEq, Repr

/-- Model of `time.Since(time.UnixMilli(report.EndTime)) > 15*time.Minute`, with both
instants in milliseconds. -/
def isOutdated (now : Int) (endTime : Int) : Bool :=
  decide (now - endTime > 15 * 60 * 1000)

/-- Observable outcome of one report iteration: the liveness flag passed to
the handler (none when the handler was not invoked) and the cache entry
written (none when the entry was left untouched). -/
structure StepResult where
  handlerLive : Option Bool
  cacheWrite : Option CachedReport
deriving DecidableEq, Repr

/-- Model of `sendUpdate`: the non-blocking select on `ctx.Done()` suppresses the
handler invocation when the cycle context is already cancelled. -/
def sendUpdate (ctxCancelled : Bool) (isLive : Bool) : Option Bool :=
  if ctxCancelled then none else some isLive

/-- One iteration of the report loop of `checkChanges`: the nested switch on
cache presence, end-time change, and outdatedness.  `fetchOk` is whether the
`TopDeathsForReport` call succeeded; on failure the iteration `continue`s
with no emission and no cache write. -/
def processReport (ctxCancelled : Bool) (now : Int)
    (cached : Option CachedReport) (r : Report) (fetchOk : Bool) : StepResult :=
  let outdated := isOutdated now r.EndTime
  match cached with
  | none =>
    if outdated then ⟨none, none⟩
    else if fetchOk then
      ⟨sendUpdate ctxCancelled true, some ⟨r.Code, r.EndTime, true⟩⟩
    else ⟨none, none⟩
  | some c =>
    if decide (c.endTime ≠ r.EndTime) then
      if fetchOk then
        ⟨sendUpdate ctxCancelled (!outdated), some ⟨r.Code, r.EndTime, !outdated⟩⟩
      else ⟨none, none⟩
    else if c.isLive && outdated then
      if fetchOk then
        ⟨sendUpdate ctxCancelled false, some ⟨r.Code, r.EndTime, false⟩⟩
      else ⟨none, none⟩
    else ⟨none, none⟩

/-- The four-outcome state table exactly as the specification words it, used
as the refinement target for `processReport` (successful fetch, live
context). -/
def specStateTable (now : Int) (cached : Option CachedReport) (r : Report) :
    StepResult :=
  match cached with
  | none =>
    if isOutdated now r.EndTime then ⟨none, none⟩
    else ⟨some true, some ⟨r.Code, r.EndTime, true⟩⟩
  | some c =>
    if decide (c.endTime ≠ r.EndTime) then
      ⟨some (!isOutdated now r.EndTime),
        some ⟨r.Code, r.EndTime, !isOutdated now r.EndTime⟩⟩
    else if c.isLive && isOutdated now r.EndTime then
      ⟨some false, some ⟨r.Code, r.EndTime, false⟩⟩
    else ⟨none, none⟩

/-! Section: Paginated death-event fetching (`getDeathEvents`, warcraftlogs client)

The server is a parameter mapping the optional `startTime` cursor of a
request to the returned page.  A raw event record is modelled by its
`json.Unmarshal` outcome: `none` for an unparseable record (skipped with a
warning), `some ev` for a parsed `DeathEvent`. -/

/-- One events page: raw records (by parse outcome) plus the optional
next-page cursor (`nextPageTimestamp`, an `Int` here; the Go `float64` value
is only ever passed back verbatim). -/
structure EventsPage where
  recs : List (Option DeathEvent)
  nextPageTimestamp : Option Int
deriving DecidableEq, Repr

/-- The pages fetched by the pagination loop: always the page at the current
cursor, then — when it carries a cursor and the page budget is not yet
exhausted — the pages of the follow-up chain.  The initial budget 9 mirrors
`pageCount`/`maxPages = 10`: the loop stops once 10 pages are fetched. -/
def fetchedPages (server : Option Int → EventsPage) :
    Option Int → Nat → List EventsPage
  | cursor, remaining =>
    let page := server cursor
    match page.nextPageTimestamp with
    | none => [page]
    | some ts =>
      match remaining with
      | 0 => [page]
      | n + 1 => page :: fetchedPages server (some ts) n

/-- The accumulation loop of `getDeathEvents`: parseable records of each
fetched page are appended in delivery order. -/
def getDeathEventsLoop (server : Option Int → EventsPage) :
    Option Int → Nat → List DeathEvent
  | cursor, remaining =>
    let page := server cursor
    let evs := page.recs.filterMap id
    match page.nextPageTimestamp with
    | none => evs
    | some ts =>
      match remaining with
      | 0 => evs
      | n + 1 => evs ++ getDeathEventsLoop server (some ts) n

/-- Timestamp order on death events, the comparison of the final
`sort.Slice`. -/
def evLE (a b : DeathEvent) : Prop := a.Timestamp ≤ b.Timestamp

instance : DecidableRel evLE := fun a b =>
  inferInstanceAs (Decidable (a.Timestamp ≤ b.Timestamp))

instance : IsTotal DeathEvent evLE := ⟨fun a b => Int.le_total a.Timestamp b.Timestamp⟩

instance : IsTrans DeathEvent evLE := ⟨fun _ _ _ h1 h2 => le_trans h1 h2⟩

/-- Model of `getDeathEvents`: run the pagination loop from an absent cursor, then
sort everything by timestamp ascending. -/
def getDeathEvents (server : Option Int → EventsPage) : List DeathEvent :=
  (getDeathEventsLoop server none 9).insertionSort evLE

/-! Section: Leaderboard aggregation (`TopDeathsForReport`, warcraftlogs client)

A fight is represented by its (timestamp-ordered) list of death events as
returned by `getDeathEvents`; the two leaderboards are accumulated exactly
as in the Go fold.  The `totalIdx`/`firstIdx` maps of the Go code cache the
list index of each name; `inc` expresses the same update on the list
directly. -/

/-- Model of `inc`: ignore an empty name; bump the entry carrying the name when
present, otherwise append a fresh entry with count 1. -/
def inc (l : List PlayerTop) (name : String) : List PlayerTop :=
  if name = "" then l
  else if l.any (fun p => decide (p.Name = name)) then
    l.map fun p => if p.Name = name then ⟨p.Name, p.Value + 1⟩ else p
  else l ++ [⟨name, 1⟩]

/-- State threaded through one fight's event loop: the two accumulators and
the `firstTaken` flag. -/
def fightStep (acc : List PlayerTop × List PlayerTop × Bool) (ev : DeathEvent) :
    List PlayerTop × List PlayerTop × Bool :=
  if ev.Target.Name = "" then acc
  else
    let total := inc acc.1 ev.Target.Name
    if acc.2.2 then (total, acc.2.1, true)
    else (total, inc acc.2.1 ev.Target.Name, true)

/-- Process one fight: run its events with `firstTaken` reset to false. -/
def procFight (tf : List PlayerTop × List PlayerTop) (events : List DeathEvent) :
    List PlayerTop × List PlayerTop :=
  let r := events.foldl fightStep (tf.1, tf.2, false)
  (r.1, r.2.1)

/-- Accumulate both leaderboards over all fights of a report. -/
def aggregate (fights : List (List DeathEvent)) :
    List PlayerTop × List PlayerTop :=
  fights.foldl procFight ([], [])

/-- Descending order on counts, the comparison of the two
`sort.SliceStable` calls (`Value` strictly greater first; insertion before
the first `≼`-related element makes ties keep insertion order). -/
def ptGE (a b : PlayerTop) : Prop := b.Value ≤ a.Value

instance : DecidableRel ptGE := fun a b =>
  inferInstanceAs (Decidable (b.Value ≤ a.Value))

instance : IsTotal PlayerTop ptGE := ⟨fun a b => Nat.le_total b.Value a.Value⟩

instance : IsTrans PlayerTop ptGE := ⟨fun _ _ _ h1 h2 => Nat.le_trans h2 h1⟩

/-- Rank one accumulator: stable sort by count descending, then truncate to
the top `N = 5` entries. -/
def rankTop (counts : List PlayerTop) : List PlayerTop :=
  (counts.insertionSort ptGE).take 5

/-- Model of `TopDeathsForReport`, given the per-fight death events: the early return
on a report without boss fights, else aggregate, rank and truncate. -/
def TopDeathsForReport (fights : List (List DeathEvent)) : ReportDetails :=
  if fights.isEmpty then ⟨[], []⟩
  else ⟨rankTop (aggregate fights).1, rankTop (aggregate fights).2⟩

/-- Count held for a name: the `Value` of the first entry carrying it. -/
def countOf (l : List PlayerTop) (n : String) : Nat :=
  match l.find? (fun p => decide (p.Name = n)) with
  | some p => p.Value
  | none => 0

/-- Specification-level total death count of a player over a report. -/
def totalCount (fights : List (List DeathEvent)) (n : String) : Nat :=
  (fights.map fun evs =>
    (evs.filter fun e => decide (e.Target.Name = n)).length).sum

/-- Name of the first death with a known (non-empty) player name in a
fight, if any. -/
def firstDeathName (evs : List DeathEvent) : Option String :=
  (evs.find? fun e => !(decide (e.Target.Name = ""))).map fun e => e.Target.Name

/-- Specification-level first-death count of a player over a report. -/
def firstCount (fights : List (List DeathEvent)) (n : String) : Nat :=
  (fights.filter fun evs => decide (firstDeathName evs = some n)).length

/-! Section: helper lemmas -/

/-- A size list has length one with head 20 exactly when it is `[20]`. -/
lemma sizes_singleton_iff (s : List Int) :
    (s.length = 1 ∧ s.headD 0 = 20) ↔ s = [20] := by
  rcases s with _ | ⟨a, _ | ⟨b, t⟩⟩ <;> simp [List.headD]

/-! Section: claim theorems -/

/-- C7.  The pre-classification filter keeps exactly the reports whose zone
difficulty list contains an entry named "Mythic" with exactly one raid size
equal to 20, discarding all others; it is a pure per-report predicate and
hence idempotent. -/
theorem deleteNonRaid_spec (reports : List Report) :
    (∀ r : Report, r ∈ deleteNonRaid reports ↔
      r ∈ reports ∧ ∃ d ∈ r.Zone.Difficulties, d.Name = "Mythic" ∧ d.Sizes = [20]) ∧
    deleteNonRaid (deleteNonRaid reports) = deleteNonRaid reports := by
  constructor
  · intro r
    simp only [deleteNonRaid, List.mem_filter, Bool.not_not, isMythic20,
      List.any_eq_true, Bool.and_eq_true, decide_eq_true_eq]
    constructor
    · rintro ⟨hm, d, hd, ⟨h1, h2⟩, h3⟩
      exact ⟨hm, d, hd, h1, (sizes_singleton_iff d.Sizes).mp ⟨h2, h3⟩⟩
    · rintro ⟨hm, d, hd, h1, h2⟩
      have := (sizes_singleton_iff d.Sizes).mpr h2
      exact ⟨hm, d, hd, ⟨h1, this.1⟩, this.2⟩
  · simp [deleteNonRaid, List.filter_filter]

/-- C7 witness: a qualifying report passes the filter, a non-qualifying one
is removed, and filtering is idempotent on a concrete list. -/
theorem deleteNonRaid_spec_witness :
    (⟨"A", "t", 0, 0, "o", ⟨"z", [⟨"Mythic", [20]⟩]⟩⟩ : Report) ∈
      deleteNonRaid [⟨"A", "t", 0, 0, "o", ⟨"z", [⟨"Mythic", [20]⟩]⟩⟩,
        ⟨"B", "t", 0, 0, "o", ⟨"z", [⟨"Mythic", [10, 25]⟩]⟩⟩] ∧
    (⟨"A", "t", 0, 0, "o", ⟨"z", [⟨"Mythic", [20]⟩]⟩⟩ : Report) ∈
        [⟨"A", "t", 0, 0, "o", ⟨"z", [⟨"Mythic", [20]⟩]⟩⟩,
          ⟨"B", "t", 0, 0, "o", ⟨"z", [⟨"Mythic", [10, 25]⟩]⟩⟩] ∧
      ∃ d ∈ (⟨"z", [⟨"Mythic", [20]⟩]⟩ : Zone).Difficulties,
        d.Name = "Mythic" ∧ d.Sizes = [20] := by
  refine ⟨by decide, ?_⟩
  exact ((deleteNonRaid_spec [⟨"A", "t", 0, 0, "o", ⟨"z", [⟨"Mythic", [20]⟩]⟩⟩,
    ⟨"B", "t", 0, 0, "o", ⟨"z", [⟨"Mythic", [10, 25]⟩]⟩⟩]).1
      ⟨"A", "t", 0, 0, "o", ⟨"z", [⟨"Mythic", [20]⟩]⟩⟩).mp (by decide)

/-- C8.  The supervisor keeps at most one polling loop per guild id: a
second `Watch` of the same id is a no-op that starts no loop, two `Watch`
calls of an unwatched id start exactly one loop, `Unwatch` of a watched id
removes the stored handle and invokes it, and `Unwatch` of an unknown id is
a no-op. -/
theorem watch_unwatch_spec (s : WatcherState) (g : String) :
    Watch (Watch s g) g = Watch s g ∧
    (g ∈ s.watched → Watch s g = s) ∧
    (g ∉ s.watched →
      (Watch s g).loopStarts = s.loopStarts ++ [g] ∧
      (Watch (Watch s g) g).loopStarts.count g = s.loopStarts.count g + 1) ∧
    (g ∉ s.watched → Unwatch s g = s) ∧
    (g ∈ s.watched →
      (Unwatch s g).watched = s.watched.erase g ∧
      (Unwatch s g).cancelCalls = s.cancelCalls ++ [g] ∧
      (Unwatch s g).loopStarts = s.loopStarts) := by
  by_cases h : g ∈ s.watched
  · simp [Watch, Unwatch, h]
  · refine ⟨?_, by simp [Watch, h], ?_, by simp [Unwatch, h], by simp [h]⟩
    · simp [Watch, h]
    · intro _
      simp [Watch, h, List.count_append]

/-- C8 witness: two `Watch` calls on a fresh state start exactly one loop,
and `Unwatch` of a never-watched id is a no-op. -/
theorem watch_unwatch_spec_witness :
    ("g" ∉ (⟨[], [], []⟩ : WatcherState).watched) ∧
    (Watch (⟨[], [], []⟩ : WatcherState) "g").loopStarts = [] ++ ["g"] ∧
    (Watch (Watch (⟨[], [], []⟩ : WatcherState) "g") "g").loopStarts.count "g"
      = ([] : List String).count "g" + 1 ∧
    Unwatch (⟨[], [], []⟩ : WatcherState) "g" = ⟨[], [], []⟩ := by
  refine ⟨by decide, ?_⟩
  have h1 := (watch_unwatch_spec ⟨[], [], []⟩ "g").2.2.1 (by decide)
  have h2 := (watch_unwatch_spec ⟨[], [], []⟩ "g").2.2.2.1 (by decide)
  exact ⟨h1.1, h1.2, h2⟩

/-- C6.  A fresh token short-circuits `ensureToken` with no exchange and no
state change; a stale one escalates to `refreshToken`, which re-checks the
same freshness condition before exchanging, and an exchange failure is
returned unretried with the state unchanged. -/
theorem ensureToken_spec (now : Int) (st : TokenState)
    (exchange : Except String (String × Int)) :
    (tokenFresh now st = true → ensureToken now st exchange = (Except.ok (), st, 0)) ∧
    (tokenFresh now st = false → ensureToken now st exchange = refreshToken now st exchange) ∧
    ((refreshToken now st exchange).2.2 = if tokenFresh now st then 0 else 1) ∧
    (tokenFresh now st = false → ∀ e, exchange = Except.error e →
      refreshToken now st exchange = (Except.error e, st, 1)) ∧
    (tokenFresh now st = true ↔ st.token ≠ "" ∧ now + 60 < st.expiresAt) := by
  refine ⟨?_, ?_, ?_, ?_, ?_⟩
  · intro h; simp [ensureToken, h]
  · intro h; simp [ensureToken, h]
  · by_cases h : tokenFresh now st
    · simp [refreshToken, h]
    · cases exchange with
      | error e => simp [refreshToken, h]
      | ok te => cases te with
        | mk t e => simp [refreshToken, h]
  · intro h e he
    subst he
    simp [refreshToken, h]
  · simp [tokenFresh]

/-- C6 witness: a fresh token returns unchanged with no exchange, a stale
one surfaces the exchange error unretried. -/
theorem ensureToken_spec_witness :
    (tokenFresh 0 ⟨"tok", 100⟩ = true ∧
      ensureToken 0 ⟨"tok", 100⟩ (Except.error "boom") = (Except.ok (), ⟨"tok", 100⟩, 0)) ∧
    (tokenFresh 0 ⟨"tok", 30⟩ = false ∧
      refreshToken 0 ⟨"tok", 30⟩ (Except.error "boom")
        = (Except.error "boom", ⟨"tok", 30⟩, 1)) := by
  refine ⟨⟨by decide, (ensureToken_spec 0 ⟨"tok", 100⟩ (Except.error "boom")).1 (by decide)⟩,
    ⟨by decide, (ensureToken_spec 0 ⟨"tok", 30⟩ (Except.error "boom")).2.2.2.1
      (by decide) "boom" rfl⟩⟩

/-- C5.  A GraphQL call retries exactly once, only after a 401 first
response whose forced refresh succeeded; every other path issues at most one
request; a transport-successful envelope with application-level errors fails
with the first message; an empty or null data payload fails as well. -/
theorem gql_spec (ensureErr refreshErr : Option String)
    (resp1 resp2 : HTTPResult) (outNil : Bool) (uErr : Option String) :
    (gql ensureErr refreshErr resp1 resp2 outNil uErr).2 ≤ 2 ∧
    ((gql ensureErr refreshErr resp1 resp2 outNil uErr).2 = 2 ↔
      ensureErr = none ∧ refreshErr = none ∧
      ∃ body env, resp1 = HTTPResult.response 401 body env) ∧
    (∀ st body env, resp1 = HTTPResult.response st body env → st ≠ 401 →
      ensureErr = none →
      gql ensureErr refreshErr resp1 resp2 outNil uErr
        = (finishResp st body env outNil uErr, 1)) ∧
    (∀ st body env b1 e1, resp2 = HTTPResult.response st body env →
      resp1 = HTTPResult.response 401 b1 e1 →
      ensureErr = none → refreshErr = none →
      gql ensureErr refreshErr resp1 resp2 outNil uErr
        = (finishResp st body env outNil uErr, 2)) ∧
    (∀ st body msg rest d, ¬ 400 ≤ st →
      finishResp st body ⟨msg :: rest, d⟩ outNil uErr
        = Except.error ("graphql error: " ++ msg)) ∧
    (∀ st body d, ¬ 400 ≤ st → (d = "" ∨ d = "null") →
      finishResp st body ⟨[], d⟩ outNil uErr = Except.error "graphql: empty data") := by
  refine ⟨?_, ?_, ?_, ?_, ?_, ?_⟩
  · cases ensureErr with
    | some e => simp [gql]
    | none =>
      cases resp1 with
      | transportErr e => simp [gql]
      | response st1 body1 env1 =>
        by_cases h1 : st1 = 401
        · cases refreshErr with
          | some e => simp [gql, h1]
          | none =>
            cases resp2 with
            | transportErr e => simp [gql, h1]
            | response st2 body2 env2 => simp [gql, h1]
        · simp [gql, h1]
  · cases ensureErr with
    | some e => simp [gql]
    | none =>
      cases resp1 with
      | transportErr e => simp [gql]
      | response st1 body1 env1 =>
        by_cases h1 : st1 = 401
        · subst h1
          cases refreshErr with
          | some e => simp [gql]
          | none =>
            cases resp2 with
            | transportErr e => simp [gql]
            | response st2 body2 env2 => simp [gql]
        · simp [gql, h1]
  · rintro st body env rfl hne rfl
    simp [gql, hne]
  · rintro st body env b1 e1 rfl rfl rfl rfl
    simp [gql]
  · intro st body msg rest d hst
    simp [finishResp, hst]
  · intro st body d hst hd
    rcases hd with rfl | rfl <;> simp [finishResp, hst]

/-- C5 witness: a 401 first response followed by a successful refresh leads
to exactly one retry, whose error-bearing envelope surfaces the first
application error. -/
theorem gql_spec_witness :
    gql none none (HTTPResult.response 401 "unauth" ⟨[], "x"⟩)
        (HTTPResult.response 200 "ok" ⟨["boom", "later"], "x"⟩) false none
      = (finishResp 200 "ok" ⟨["boom", "later"], "x"⟩ false none, 2) ∧
    (¬ 400 ≤ 200) ∧
    finishResp 200 "ok" ⟨["boom", "later"], "x"⟩ false none
      = Except.error ("graphql error: " ++ "boom") := by
  have h := gql_spec none none (HTTPResult.response 401 "unauth" ⟨[], "x"⟩)
    (HTTPResult.response 200 "ok" ⟨["boom", "later"], "x"⟩) false none
  refine ⟨h.2.2.2.1 200 "ok" ⟨["boom", "later"], "x"⟩ "unauth" ⟨[], "x"⟩
    rfl rfl rfl rfl, by decide, ?_⟩
  exact h.2.2.2.2.1 200 "ok" "boom" ["later"] "x" (by decide)

/-- Helper: with an unchanged end time and a cached liveness equal to the
currently observed one, the report iteration emits nothing and leaves the
cache untouched, whatever the context, fetch outcome, or time. -/
lemma processReport_no_change (ctx : Bool) (now : Int) (c : CachedReport)
    (r : Report) (fetchOk : Bool) (he : c.endTime = r.EndTime)
    (hl : c.isLive = !(isOutdated now r.EndTime)) :
    processReport ctx now (some c) r fetchOk = ⟨none, none⟩ := by
  simp only [processReport, he, hl]
  cases h : isOutdated now r.EndTime <;> simp

/-- C1.  One report iteration of the change detector agrees with the
four-outcome state table of the specification (live context, successful
detail fetch), and a report whose end time and liveness are unchanged from
the cached state produces no emission and no cache write. -/
theorem checkChanges_spec (now : Int) (cached : Option CachedReport) (r : Report) :
    processReport false now cached r true = specStateTable now cached r ∧
    (∀ c : CachedReport, cached = some c → c.endTime = r.EndTime →
      c.isLive = !(isOutdated now r.EndTime) →
      ∀ ctx fetchOk : Bool,
        processReport ctx now cached r fetchOk = ⟨none, none⟩) := by
  constructor
  · cases cached with
    | none =>
      cases h : isOutdated now r.EndTime <;>
        simp [processReport, specStateTable, sendUpdate, h]
    | some c =>
      by_cases he : c.endTime = r.EndTime
      · cases hl : c.isLive <;> cases h : isOutdated now r.EndTime <;>
          simp [processReport, specStateTable, sendUpdate, he, hl, h]
      · cases h : isOutdated now r.EndTime <;>
          simp [processReport, specStateTable, sendUpdate, he, h]
  · rintro c rfl he hl ctx fetchOk
    exact processReport_no_change ctx now c r fetchOk he hl

/-- C1 witness: a concrete cached report with unchanged end time and
liveness is skipped, and a fresh unseen live report matches the table. -/
theorem checkChanges_spec_witness :
    processReport false 2000 none ⟨"ABC", "t", 0, 1000, "o", ⟨"z", []⟩⟩ true
      = specStateTable 2000 none ⟨"ABC", "t", 0, 1000, "o", ⟨"z", []⟩⟩ ∧
    ((⟨"ABC", 1000, true⟩ : CachedReport).endTime
        = (⟨"ABC", "t", 0, 1000, "o", ⟨"z", []⟩⟩ : Report).EndTime ∧
      (⟨"ABC", 1000, true⟩ : CachedReport).isLive = !(isOutdated 2000 1000)) ∧
    processReport true 2000 (some ⟨"ABC", 1000, true⟩)
      ⟨"ABC", "t", 0, 1000, "o", ⟨"z", []⟩⟩ false = ⟨none, none⟩ := by
  refine ⟨(checkChanges_spec 2000 none ⟨"ABC", "t", 0, 1000, "o", ⟨"z", []⟩⟩).1,
    ⟨by decide, by decide⟩, ?_⟩
  exact (checkChanges_spec 2000 (some ⟨"ABC", 1000, true⟩)
    ⟨"ABC", "t", 0, 1000, "o", ⟨"z", []⟩⟩).2 ⟨"ABC", 1000, true⟩ rfl
    (by decide) (by decide) true false

/-- C9.  The cache write of a report iteration does not depend on the cycle
context: a cancelled context only suppresses the handler invocation, the
newly observed end time and liveness are still recorded under the report's
code, and the recorded entry prevents any re-emission of the same state in
later cycles. -/
theorem sendUpdate_cancelled_spec (now : Int) (cached : Option CachedReport)
    (r : Report) (ctx fetchOk : Bool) :
    (processReport ctx now cached r fetchOk).cacheWrite
      = (processReport false now cached r fetchOk).cacheWrite ∧
    (processReport true now cached r fetchOk).handlerLive = none ∧
    (∀ cw : CachedReport,
      (processReport ctx now cached r fetchOk).cacheWrite = some cw →
      cw.code = r.Code ∧ cw.endTime = r.EndTime ∧
      (∀ (now2 : Int) (ctx2 fetch2 : Bool),
        cw.isLive = !(isOutdated now2 r.EndTime) →
        processReport ctx2 now2 (some cw) r fetch2 = ⟨none, none⟩)) := by
  have hwrite : ∀ b : Bool,
      (processReport b now cached r fetchOk).cacheWrite
        = (processReport false now cached r fetchOk).cacheWrite := by
    intro b
    cases cached with
    | none =>
      cases h : isOutdated now r.EndTime <;> cases fetchOk <;>
        simp [processReport, sendUpdate, h]
    | some c =>
      by_cases he : c.endTime = r.EndTime
      · cases hl : c.isLive <;> cases h : isOutdated now r.EndTime <;>
          cases fetchOk <;> simp [processReport, sendUpdate, he, hl, h]
      · cases h : isOutdated now r.EndTime <;> cases fetchOk <;>
          simp [processReport, sendUpdate, he, h]
  refine ⟨hwrite ctx, ?_, ?_⟩
  · cases cached with
    | none =>
      cases h : isOutdated now r.EndTime <;> cases fetchOk <;>
        simp [processReport, sendUpdate, h]
    | some c =>
      by_cases he : c.endTime = r.EndTime
      · cases hl : c.isLive <;> cases h : isOutdated now r.EndTime <;>
          cases fetchOk <;> simp [processReport, sendUpdate, he, hl, h]
      · cases h : isOutdated now r.EndTime <;> cases fetchOk <;>
          simp [processReport, sendUpdate, he, h]
  · intro cw hcw
    have hshape : cw.code = r.Code ∧ cw.endTime = r.EndTime := by
      cases cached with
      | none =>
        cases h : isOutdated now r.EndTime <;> cases fetchOk <;> cases ctx <;>
          simp [processReport, sendUpdate, h] at hcw <;>
          simp [← hcw]
      | some c =>
        by_cases he : c.endTime = r.EndTime
        · cases hl : c.isLive <;> cases h : isOutdated now r.EndTime <;>
            cases fetchOk <;> cases ctx <;>
            simp [processReport, sendUpdate, he, hl, h] at hcw <;>
            simp [← hcw]
        · cases h : isOutdated now r.EndTime <;> cases fetchOk <;> cases ctx <;>
            simp [processReport, sendUpdate, he, h] at hcw <;>
            simp [← hcw]
    refine ⟨hshape.1, hshape.2, ?_⟩
    intro now2 ctx2 fetch2 hlive
    exact processReport_no_change ctx2 now2 cw r fetch2 hshape.2 hlive

/-- C9 witness: with the context cancelled, a changed report still gets its
cache entry written while the handler stays uninvoked, and the written entry
silences the same state later. -/
theorem sendUpdate_cancelled_spec_witness :
    (processReport true 2000 (some ⟨"ABC", 500, true⟩)
        ⟨"ABC", "t", 0, 1000, "o", ⟨"z", []⟩⟩ true).cacheWrite
      = (processReport false 2000 (some ⟨"ABC", 500, true⟩)
        ⟨"ABC", "t", 0, 1000, "o", ⟨"z", []⟩⟩ true).cacheWrite ∧
    (processReport true 2000 (some ⟨"ABC", 500, true⟩)
        ⟨"ABC", "t", 0, 1000, "o", ⟨"z", []⟩⟩ true).handlerLive = none ∧
    ((processReport true 2000 (some ⟨"ABC", 500, true⟩)
        ⟨"ABC", "t", 0, 1000, "o", ⟨"z", []⟩⟩ true).cacheWrite
      = some ⟨"ABC", 1000, true⟩) ∧
    processReport false 3000 (some ⟨"ABC", 1000, true⟩)
      ⟨"ABC", "t", 0, 1000, "o", ⟨"z", []⟩⟩ true = ⟨none, none⟩ := by
  have h := sendUpdate_cancelled_spec 2000 (some ⟨"ABC", 500, true⟩)
    ⟨"ABC", "t", 0, 1000, "o", ⟨"z", []⟩⟩ true true
  refine ⟨h.1, h.2.1, by decide, ?_⟩
  exact (h.2.2 ⟨"ABC", 1000, true⟩ (by decide)).2.2 3000 false true (by decide)

/-- Unfolding equation of `fetchedPages` when the page has no cursor. -/
lemma fetchedPages_none (server : Option Int → EventsPage) (cursor : Option Int)
    (rem : Nat) (hp : (server cursor).nextPageTimestamp = none) :
    fetchedPages server cursor rem = [server cursor] := by
  unfold fetchedPages
  dsimp only
  rw [hp]

/-- Unfolding equation of `fetchedPages` on an exhausted budget. -/
lemma fetchedPages_some_zero (server : Option Int → EventsPage) (cursor : Option Int)
    (ts : Int) (hp : (server cursor).nextPageTimestamp = some ts) :
    fetchedPages server cursor 0 = [server cursor] := by
  unfold fetchedPages
  dsimp only
  rw [hp]

/-- Unfolding equation of `fetchedPages` when the cursor is followed. -/
lemma fetchedPages_some_succ (server : Option Int → EventsPage) (cursor : Option Int)
    (ts : Int) (n : Nat) (hp : (server cursor).nextPageTimestamp = some ts) :
    fetchedPages server cursor (n + 1)
      = server cursor :: fetchedPages server (some ts) n := by
  conv_lhs => unfold fetchedPages
  dsimp only
  rw [hp]

/-- Unfolding equation of `getDeathEventsLoop` when the page has no cursor. -/
lemma getDeathEventsLoop_none (server : Option Int → EventsPage) (cursor : Option Int)
    (rem : Nat) (hp : (server cursor).nextPageTimestamp = none) :
    getDeathEventsLoop server cursor rem = (server cursor).recs.filterMap id := by
  unfold getDeathEventsLoop
  dsimp only
  rw [hp]

/-- Unfolding equation of `getDeathEventsLoop` on an exhausted budget. -/
lemma getDeathEventsLoop_some_zero (server : Option Int → EventsPage)
    (cursor : Option Int) (ts : Int)
    (hp : (server cursor).nextPageTimestamp = some ts) :
    getDeathEventsLoop server cursor 0 = (server cursor).recs.filterMap id := by
  unfold getDeathEventsLoop
  dsimp only
  rw [hp]

/-- Unfolding equation of `getDeathEventsLoop` when the cursor is followed. -/
lemma getDeathEventsLoop_some_succ (server : Option Int → EventsPage)
    (cursor : Option Int) (ts : Int) (n : Nat)
    (hp : (server cursor).nextPageTimestamp = some ts) :
    getDeathEventsLoop server cursor (n + 1)
      = (server cursor).recs.filterMap id ++ getDeathEventsLoop server (some ts) n := by
  conv_lhs => unfold getDeathEventsLoop
  dsimp only
  rw [hp]

/-- Helper: the pagination loop fetches at most one page more than its
remaining budget. -/
lemma fetchedPages_length_le (server : Option Int → EventsPage) :
    ∀ (rem : Nat) (cursor : Option Int),
      (fetchedPages server cursor rem).length ≤ rem + 1 := by
  intro rem
  induction rem with
  | zero =>
    intro cursor
    cases h : (server cursor).nextPageTimestamp with
    | none => simp [fetchedPages_none server cursor 0 h]
    | some ts => simp [fetchedPages_some_zero server cursor ts h]
  | succ n ih =>
    intro cursor
    cases h : (server cursor).nextPageTimestamp with
    | none => simp [fetchedPages_none server cursor (n + 1) h]
    | some ts =>
      rw [fetchedPages_some_succ server cursor ts n h, List.length_cons]
      exact Nat.succ_le_succ (ih (some ts))

/-- Helper: the accumulation loop concatenates the parseable records of the
fetched pages in delivery order. -/
lemma getDeathEventsLoop_eq_flatten (server : Option Int → EventsPage) :
    ∀ (rem : Nat) (cursor : Option Int),
      getDeathEventsLoop server cursor rem
        = ((fetchedPages server cursor rem).map fun p => p.recs.filterMap id).flatten := by
  intro rem
  induction rem with
  | zero =>
    intro cursor
    cases h : (server cursor).nextPageTimestamp with
    | none =>
      simp [getDeathEventsLoop_none server cursor 0 h, fetchedPages_none server cursor 0 h]
    | some ts =>
      simp [getDeathEventsLoop_some_zero server cursor ts h,
        fetchedPages_some_zero server cursor ts h]
  | succ n ih =>
    intro cursor
    cases h : (server cursor).nextPageTimestamp with
    | none =>
      simp [getDeathEventsLoop_none server cursor (n + 1) h,
        fetchedPages_none server cursor (n + 1) h]
    | some ts =>
      rw [getDeathEventsLoop_some_succ server cursor ts n h,
        fetchedPages_some_succ server cursor ts n h, List.map_cons,
        List.flatten_cons, ih (some ts)]

/-- Helper: enlarging the page budget only appends further events, so a
capped run is a prefix of any longer run. -/
lemma getDeathEventsLoop_truncation (server : Option Int → EventsPage) (k : Nat) :
    ∀ (rem : Nat) (cursor : Option Int),
      ∃ t, getDeathEventsLoop server cursor rem ++ t
        = getDeathEventsLoop server cursor (rem + k) := by
  intro rem
  induction rem with
  | zero =>
    intro cursor
    cases h : (server cursor).nextPageTimestamp with
    | none =>
      refine ⟨[], ?_⟩
      rw [show 0 + k = k by omega]
      simp [getDeathEventsLoop_none server cursor 0 h,
        getDeathEventsLoop_none server cursor k h]
    | some ts =>
      cases k with
      | zero => exact ⟨[], by simp⟩
      | succ j =>
        refine ⟨getDeathEventsLoop server (some ts) j, ?_⟩
        rw [getDeathEventsLoop_some_zero server cursor ts h]
        rw [show 0 + (j + 1) = j + 1 by omega]
        rw [getDeathEventsLoop_some_succ server cursor ts j h]
  | succ n ih =>
    intro cursor
    cases h : (server cursor).nextPageTimestamp with
    | none =>
      refine ⟨[], ?_⟩
      rw [show n + 1 + k = (n + k) + 1 by omega]
      simp [getDeathEventsLoop_none server cursor (n + 1) h,
        getDeathEventsLoop_none server cursor ((n + k) + 1) h]
    | some ts =>
      obtain ⟨t, ht⟩ := ih (some ts)
      refine ⟨t, ?_⟩
      rw [show n + 1 + k = (n + k) + 1 by omega]
      rw [getDeathEventsLoop_some_succ server cursor ts n h,
        getDeathEventsLoop_some_succ server cursor ts (n + k) h,
        List.append_assoc, ht]

/-- C2.  Pagination fetches at most 10 pages (more generally one more than
any budget), the accumulated list is the concatenation of the fetched
pages' parseable records, a longer budget only appends events (truncated
prefix), and the returned list is that concatenation sorted by timestamp
ascending (a sorted permutation of it, whatever order pages delivered). -/
theorem getDeathEvents_spec (server : Option Int → EventsPage) :
    (fetchedPages server none 9).length ≤ 10 ∧
    getDeathEventsLoop server none 9
      = ((fetchedPages server none 9).map fun p => p.recs.filterMap id).flatten ∧
    (getDeathEvents server).Perm (getDeathEventsLoop server none 9) ∧
    (getDeathEvents server).Sorted evLE ∧
    (∀ (cursor : Option Int) (rem : Nat),
      (fetchedPages server cursor rem).length ≤ rem + 1) ∧
    (∀ (cursor : Option Int) (rem k : Nat),
      ∃ t, getDeathEventsLoop server cursor rem ++ t
        = getDeathEventsLoop server cursor (rem + k)) := by
  refine ⟨fetchedPages_length_le server 9 none,
    getDeathEventsLoop_eq_flatten server 9 none,
    List.perm_insertionSort evLE _,
    List.sorted_insertionSort evLE _,
    fun cursor rem => fetchedPages_length_le server rem cursor,
    fun cursor rem k => getDeathEventsLoop_truncation server k rem cursor⟩

/-- Helper: inserting an element into a list keeps, among the entries of any
fixed count, the inserted element first exactly when it carries that count;
the entries of every other count are untouched.  This is the stability of
`orderedInsert` for the descending count order. -/
lemma filter_value_orderedInsert (x : PlayerTop) (v : Nat) :
    ∀ l : List PlayerTop,
      (l.orderedInsert ptGE x).filter (fun p => decide (p.Value = v))
        = if x.Value = v then x :: l.filter (fun p => decide (p.Value = v))
          else l.filter (fun p => decide (p.Value = v)) := by
  intro l
  induction l with
  | nil =>
    by_cases hx : x.Value = v <;> simp [List.orderedInsert, hx]
  | cons b l ih =>
    by_cases hb : ptGE x b
    · rw [List.orderedInsert_of_le ptGE l hb]
      by_cases hx : x.Value = v <;> simp [hx, List.filter_cons]
    · have hxb : x.Value < b.Value := by
        simpa [ptGE, Nat.not_le] using hb
      have hrec : (b :: l).orderedInsert ptGE x = b :: l.orderedInsert ptGE x := by
        simp [List.orderedInsert, hb]
      rw [hrec]
      by_cases hx : x.Value = v
      · have hbv : ¬ b.Value = v := by omega
        simp [List.filter_cons, hbv, ih, hx]
      · by_cases hbv : b.Value = v <;> simp [List.filter_cons, hbv, ih, hx]

/-- Helper: the stable descending sort keeps, for every count value, the
tied entries in their original order. -/
lemma filter_value_insertionSort (v : Nat) :
    ∀ l : List PlayerTop,
      (l.insertionSort ptGE).filter (fun p => decide (p.Value = v))
        = l.filter (fun p => decide (p.Value = v)) := by
  intro l
  induction l with
  | nil => simp
  | cons x l ih =>
    rw [List.insertionSort, filter_value_orderedInsert x v]
    by_cases hx : x.Value = v <;> simp [List.filter_cons, hx, ih]

/-- C3.  Both leaderboards of `TopDeathsForReport` are the stable descending
sort of the accumulated counts truncated to five entries: length never
exceeds 5, the result is sorted by count descending, it is a prefix of the
full sorted list, which is a permutation of the accumulator preserving the
original (first-encountered) order inside every tie class. -/
theorem topDeaths_rank_spec (fights : List (List DeathEvent)) :
    (TopDeathsForReport fights).TopDeaths = rankTop (aggregate fights).1 ∧
    (TopDeathsForReport fights).TopFirstDeaths = rankTop (aggregate fights).2 ∧
    (∀ counts : List PlayerTop,
      (rankTop counts).length ≤ 5 ∧
      (rankTop counts).Sorted ptGE ∧
      (∃ t, rankTop counts ++ t = counts.insertionSort ptGE) ∧
      (counts.insertionSort ptGE).Perm counts ∧
      (∀ v : Nat,
        (counts.insertionSort ptGE).filter (fun p => decide (p.Value = v))
          = counts.filter (fun p => decide (p.Value = v)))) := by
  refine ⟨?_, ?_, ?_⟩
  · cases fights with
    | nil => simp [TopDeathsForReport, aggregate, rankTop]
    | cons f fs => simp [TopDeathsForReport]
  · cases fights with
    | nil => simp [TopDeathsForReport, aggregate, rankTop]
    | cons f fs => simp [TopDeathsForReport]
  · intro counts
    refine ⟨List.length_take_le 5 _, ?_, ?_, List.perm_insertionSort ptGE counts,
      fun v => filter_value_insertionSort v counts⟩
    · exact List.Pairwise.sublist (List.take_sublist 5 _)
        (List.sorted_insertionSort ptGE counts)
    · exact ⟨(counts.insertionSort ptGE).drop 5, List.take_append_drop 5 _⟩

/-- Helper: how `inc` changes the count held for an arbitrary name: the
incremented name gains one, every other name is untouched. -/
lemma countOf_inc (l : List PlayerTop) (n m : String) (hn : n ≠ "") :
    countOf (inc l n) m = countOf l m + (if m = n then 1 else 0) := by
  unfold inc
  rw [if_neg hn]
  by_cases ha : l.any (fun p => decide (p.Name = n)) = true
  · rw [if_pos ha]
    unfold countOf
    rw [List.find?_map]
    have hcomp : ((fun p => decide (p.Name = m)) ∘
        (fun p => if p.Name = n then (⟨p.Name, p.Value + 1⟩ : PlayerTop) else p))
        = fun p => decide (p.Name = m) := by
      funext p
      by_cases hp : p.Name = n <;> simp [hp]
    rw [hcomp]
    cases hf : l.find? (fun p => decide (p.Name = m)) with
    | none =>
      by_cases hmn : m = n
      · subst hmn
        rw [List.find?_eq_none] at hf
        rw [List.any_eq_true] at ha
        obtain ⟨p, hp, hpn⟩ := ha
        exact absurd hpn (hf p hp)
      · simp [hmn]
    | some q =>
      have hq : q.Name = m := by simpa using List.find?_some hf
      by_cases hmn : m = n
      · subst hmn
        simp [hq]
      · have : ¬ q.Name = n := by rw [hq]; exact hmn
        simp [this, hmn]
  · rw [if_neg ha]
    unfold countOf
    rw [List.find?_append]
    cases hf : l.find? (fun p => decide (p.Name = m)) with
    | none =>
      by_cases hmn : m = n
      · subst hmn
        simp
      · have : ¬ ((⟨n, 1⟩ : PlayerTop).Name = m) := fun h => hmn (h.symm)
        simp [List.find?_cons, this, hmn]
    | some q =>
      by_cases hmn : m = n
      · subst hmn
        exfalso
        have hqm := List.find?_some hf
        have hmem := List.mem_of_find?_eq_some hf
        exact ha (List.any_eq_true.mpr ⟨q, hmem, hqm⟩)
      · simp [hmn]

/-- Helper: the total-deaths accumulator after one fight's event loop holds,
for every non-empty name, its previous count plus the number of that fight's
events naming the player, whatever the accumulators and flag held before. -/
lemma foldl_fightStep_total (evs : List DeathEvent) :
    ∀ (t f : List PlayerTop) (b : Bool) (n : String), n ≠ "" →
      countOf (evs.foldl fightStep (t, f, b)).1 n
        = countOf t n + (evs.filter fun e => decide (e.Target.Name = n)).length := by
  induction evs with
  | nil =>
    intro t f b n hn
    simp
  | cons e evs ih =>
    intro t f b n hn
    rw [List.foldl_cons]
    by_cases he : e.Target.Name = ""
    · have hstep : fightStep (t, f, b) e = (t, f, b) := by
        simp [fightStep, he]
      have hne : ¬ (e.Target.Name = n) := by
        rw [he]; exact fun h => hn h.symm
      rw [hstep, ih t f b n hn]
      simp [List.filter_cons, hne]
    · have h23 : ∃ f2 b2, fightStep (t, f, b) e = (inc t e.Target.Name, f2, b2) := by
        cases b <;> simp [fightStep, he]
      obtain ⟨f2, b2, hstep⟩ := h23
      rw [hstep, ih (inc t e.Target.Name) f2 b2 n hn,
        countOf_inc t e.Target.Name n he]
      by_cases hne : e.Target.Name = n
      · rw [List.filter_cons, if_pos (by simp [hne] : decide (e.Target.Name = n) = true),
          if_pos hne.symm, List.length_cons]
        omega
      · rw [List.filter_cons]
        rw [if_neg (show ¬ decide (e.Target.Name = n) = true by simp [hne])]
        rw [if_neg (show ¬ n = e.Target.Name from fun h => hne h.symm)]
        omega

/-- Helper: the first-deaths accumulator after one fight's event loop is
untouched when the first death was already taken, and otherwise records the
fight's first death with a known name, if any. -/
lemma foldl_fightStep_first (evs : List DeathEvent) :
    ∀ (t f : List PlayerTop) (b : Bool),
      (evs.foldl fightStep (t, f, b)).2.1
        = if b then f
          else
            match firstDeathName evs with
            | none => f
            | some m => inc f m := by
  induction evs with
  | nil =>
    intro t f b
    cases b <;> simp [firstDeathName]
  | cons e evs ih =>
    intro t f b
    rw [List.foldl_cons]
    by_cases he : e.Target.Name = ""
    · have hstep : fightStep (t, f, b) e = (t, f, b) := by
        simp [fightStep, he]
      have hfd : firstDeathName (e :: evs) = firstDeathName evs := by
        simp [firstDeathName, List.find?_cons, he]
      rw [hstep, ih, hfd]
    · have hfd : firstDeathName (e :: evs) = some e.Target.Name := by
        simp [firstDeathName, List.find?_cons, he]
      cases b with
      | true =>
        have hstep : fightStep (t, f, true) e = (inc t e.Target.Name, f, true) := by
          simp [fightStep, he]
        rw [hstep, ih]
        simp
      | false =>
        have hstep : fightStep (t, f, false) e
            = (inc t e.Target.Name, inc f e.Target.Name, true) := by
          simp [fightStep, he]
        rw [hstep, ih]
        simp [hfd]

/-- Helper: a first death found by `firstDeathName` has a non-empty name. -/
lemma firstDeathName_ne_empty {evs : List DeathEvent} {m : String}
    (h : firstDeathName evs = some m) : m ≠ "" := by
  unfold firstDeathName at h
  cases hf : evs.find? (fun e => !(decide (e.Target.Name = ""))) with
  | none => rw [hf] at h; simp at h
  | some e =>
    rw [hf] at h
    have h2 : e.Target.Name = m := by simpa using h
    have hp := List.find?_some hf
    simp only [Bool.not_eq_eq_eq_not, Bool.not_true, decide_eq_false_iff_not] at hp
    rw [← h2]
    exact hp

/-- Helper: `procFight` adds one fight's per-name death tally to the
total-deaths accumulator. -/
lemma procFight_total (tf : List PlayerTop × List PlayerTop)
    (evs : List DeathEvent) (n : String) (hn : n ≠ "") :
    countOf (procFight tf evs).1 n
      = countOf tf.1 n + (evs.filter fun e => decide (e.Target.Name = n)).length := by
  unfold procFight
  exact foldl_fightStep_total evs tf.1 tf.2 false n hn

/-- Helper: `procFight` increments the first-deaths accumulator exactly for
the fight's first death with a known name. -/
lemma procFight_first (tf : List PlayerTop × List PlayerTop)
    (evs : List DeathEvent) (n : String) :
    countOf (procFight tf evs).2 n
      = countOf tf.2 n + (if firstDeathName evs = some n then 1 else 0) := by
  unfold procFight
  dsimp only
  rw [foldl_fightStep_first evs tf.1 tf.2 false]
  cases hf : firstDeathName evs with
  | none => simp
  | some m =>
    have hm : m ≠ "" := firstDeathName_ne_empty hf
    simp only [Bool.false_eq_true, if_false]
    rw [countOf_inc tf.2 m n hm]
    by_cases hmn : n = m
    · subst hmn
      simp
    · have hss : ¬ ((some m : Option String) = some n) := by
        simp
        exact fun h => hmn h.symm
      simp [hmn, hss]

/-- Helper: folding `procFight` over the fights adds the report-wide tallies
to both accumulators. -/
lemma foldl_procFight_counts (fights : List (List DeathEvent)) :
    ∀ (tf : List PlayerTop × List PlayerTop) (n : String), n ≠ "" →
      countOf (fights.foldl procFight tf).1 n = countOf tf.1 n + totalCount fights n ∧
      countOf (fights.foldl procFight tf).2 n = countOf tf.2 n + firstCount fights n := by
  induction fights with
  | nil =>
    intro tf n hn
    simp [totalCount, firstCount]
  | cons fv fs ih =>
    intro tf n hn
    rw [List.foldl_cons]
    obtain ⟨ih1, ih2⟩ := ih (procFight tf fv) n hn
    constructor
    · rw [ih1, procFight_total tf fv n hn]
      simp only [totalCount, List.map_cons, List.sum_cons]
      omega
    · rw [ih2, procFight_first tf fv n]
      simp only [firstCount, List.filter_cons]
      by_cases hfv : firstDeathName fv = some n
      · simp [hfv]
        omega
      · simp [hfv]

/-- Helper: events with an empty player name are transparent to the fight
fold. -/
lemma foldl_fightStep_filter (evs : List DeathEvent) :
    ∀ acc : List PlayerTop × List PlayerTop × Bool,
      (evs.filter fun e => !(decide (e.Target.Name = ""))).foldl fightStep acc
        = evs.foldl fightStep acc := by
  induction evs with
  | nil => intro acc; rfl
  | cons e evs ih =>
    intro acc
    by_cases he : e.Target.Name = ""
    · have hstep : fightStep acc e = acc := by
        simp [fightStep, he]
      rw [List.filter_cons, if_neg (by simp [he]), List.foldl_cons, hstep]
      exact ih acc
    · rw [List.filter_cons, if_pos (by simp [he]), List.foldl_cons, List.foldl_cons]
      exact ih (fightStep acc e)

/-- Helper: dropping empty-name events from every fight leaves the whole
aggregation unchanged. -/
lemma foldl_procFight_filter (fights : List (List DeathEvent)) :
    ∀ tf : List PlayerTop × List PlayerTop,
      (fights.map fun evs => evs.filter fun e => !(decide (e.Target.Name = ""))).foldl
          procFight tf
        = fights.foldl procFight tf := by
  induction fights with
  | nil => intro tf; rfl
  | cons fv fs ih =>
    intro tf
    rw [List.map_cons, List.foldl_cons, List.foldl_cons]
    have : procFight tf (fv.filter fun e => !(decide (e.Target.Name = "")))
        = procFight tf fv := by
      unfold procFight
      rw [foldl_fightStep_filter fv]
    rw [this]
    exact ih (procFight tf fv)

/-- C4.  For every non-empty player name, the total-deaths accumulator
counts every death event naming the player across all fights, the
first-deaths accumulator counts exactly the fights whose earliest death
with a known name is the player's, and events with an empty player name
contribute to neither accumulator. -/
theorem aggregate_counts_spec (fights : List (List DeathEvent)) (n : String)
    (hn : n ≠ "") :
    countOf (aggregate fights).1 n = totalCount fights n ∧
    countOf (aggregate fights).2 n = firstCount fights n ∧
    aggregate (fights.map fun evs => evs.filter fun e => !(decide (e.Target.Name = "")))
      = aggregate fights := by
  obtain ⟨h1, h2⟩ := foldl_procFight_counts fights ([], []) n hn
  refine ⟨?_, ?_, ?_⟩
  · rw [aggregate, h1]
    simp [countOf]
  · rw [aggregate, h2]
    simp [countOf]
  · unfold aggregate
    exact foldl_procFight_filter fights ([], [])

/-- C4 witness: on a concrete report, a player dying twice in one fight
counts twice overall but only once as a first death, and an empty-name
event in another fight is ignored. -/
theorem aggregate_counts_spec_witness :
    ("A" : String) ≠ "" ∧
    (countOf (aggregate [[⟨1, "death", ⟨"A", "s"⟩⟩, ⟨2, "death", ⟨"B", "s"⟩⟩,
        ⟨3, "death", ⟨"A", "s"⟩⟩], [⟨0, "death", ⟨"", "s"⟩⟩, ⟨4, "death", ⟨"B", "s"⟩⟩]]).1 "A"
      = totalCount [[⟨1, "death", ⟨"A", "s"⟩⟩, ⟨2, "death", ⟨"B", "s"⟩⟩,
        ⟨3, "death", ⟨"A", "s"⟩⟩], [⟨0, "death", ⟨"", "s"⟩⟩, ⟨4, "death", ⟨"B", "s"⟩⟩]] "A") := by
  exact ⟨by decide, (aggregate_counts_spec [[⟨1, "death", ⟨"A", "s"⟩⟩,
    ⟨2, "death", ⟨"B", "s"⟩⟩, ⟨3, "death", ⟨"A", "s"⟩⟩],
    [⟨0, "death", ⟨"", "s"⟩⟩, ⟨4, "death", ⟨"B", "s"⟩⟩]] "A" (by decide)).1⟩

/-- Invariant of an accumulator list: every entry has a non-empty name and
a count of at least one, and names are pairwise distinct. -/
def goodList (l : List PlayerTop) : Prop :=
  (∀ p ∈ l, p.Name ≠ "" ∧ 1 ≤ p.Value) ∧ l.Pairwise fun a b => a.Name ≠ b.Name

/-- Helper: `inc` preserves the accumulator invariant. -/
lemma inc_good (l : List PlayerTop) (n : String) (h : goodList l) :
    goodList (inc l n) := by
  obtain ⟨h1, h2⟩ := h
  unfold inc
  by_cases hn : n = ""
  · rw [if_pos hn]; exact ⟨h1, h2⟩
  · rw [if_neg hn]
    by_cases ha : l.any (fun p => decide (p.Name = n)) = true
    · rw [if_pos ha]
      constructor
      · intro p hp
        rw [List.mem_map] at hp
        obtain ⟨q, hq, rfl⟩ := hp
        by_cases hqn : q.Name = n
        · rw [if_pos hqn]
          exact ⟨fun hc => hn (hqn.symm.trans hc), Nat.le_add_left 1 q.Value⟩
        · rw [if_neg hqn]
          exact h1 q hq
      · refine List.Pairwise.map _ ?_ h2
        intro a b hab
        dsimp only
        by_cases han : a.Name = n <;> by_cases hbn : b.Name = n
        · rw [if_pos han, if_pos hbn]; exact hab
        · rw [if_pos han, if_neg hbn]; exact hab
        · rw [if_neg han, if_pos hbn]; exact hab
        · rw [if_neg han, if_neg hbn]; exact hab
    · rw [if_neg ha]
      constructor
      · intro p hp
        rw [List.mem_append] at hp
        cases hp with
        | inl hpl => exact h1 p hpl
        | inr hpr =>
          have : p = ⟨n, 1⟩ := by simpa using hpr
          rw [this]
          exact ⟨hn, le_refl 1⟩
      · rw [List.pairwise_append]
        refine ⟨h2, List.pairwise_singleton _ _, ?_⟩
        intro a ha2 b hb
        have hb' : b = ⟨n, 1⟩ := by simpa using hb
        rw [hb']
        intro hcon
        exact ha (List.any_eq_true.mpr ⟨a, ha2, by simp [hcon]⟩)

/-- Helper: one fight-fold step preserves both accumulator invariants. -/
lemma fightStep_good (acc : List PlayerTop × List PlayerTop × Bool)
    (ev : DeathEvent) (h1 : goodList acc.1) (h2 : goodList acc.2.1) :
    goodList (fightStep acc ev).1 ∧ goodList (fightStep acc ev).2.1 := by
  unfold fightStep
  by_cases he : ev.Target.Name = ""
  · simp only [he, if_true]
    exact ⟨h1, h2⟩
  · simp only [he, if_false]
    cases hb : acc.2.2 <;> simp only [if_true, if_false, Bool.false_eq_true]
    · exact ⟨inc_good acc.1 ev.Target.Name h1, inc_good acc.2.1 ev.Target.Name h2⟩
    · exact ⟨inc_good acc.1 ev.Target.Name h1, h2⟩

/-- Helper: a whole fight fold preserves both accumulator invariants. -/
lemma foldl_fightStep_good (evs : List DeathEvent) :
    ∀ acc : List PlayerTop × List PlayerTop × Bool,
      goodList acc.1 → goodList acc.2.1 →
      goodList (evs.foldl fightStep acc).1 ∧
      goodList (evs.foldl fightStep acc).2.1 := by
  induction evs with
  | nil => intro acc h1 h2; exact ⟨h1, h2⟩
  | cons e evs ih =>
    intro acc h1 h2
    rw [List.foldl_cons]
    obtain ⟨g1, g2⟩ := fightStep_good acc e h1 h2
    exact ih (fightStep acc e) g1 g2

/-- Helper: both aggregated accumulators satisfy the invariant. -/
lemma aggregate_good (fights : List (List DeathEvent)) :
    goodList (aggregate fights).1 ∧ goodList (aggregate fights).2 := by
  suffices h : ∀ tf : List PlayerTop × List PlayerTop,
      goodList tf.1 → goodList tf.2 →
      goodList (fights.foldl procFight tf).1 ∧
      goodList (fights.foldl procFight tf).2 by
    exact h ([], []) ⟨by simp, List.Pairwise.nil⟩ ⟨by simp, List.Pairwise.nil⟩
  induction fights with
  | nil => intro tf h1 h2; exact ⟨h1, h2⟩
  | cons fv fs ih =>
    intro tf h1 h2
    rw [List.foldl_cons]
    obtain ⟨g1, g2⟩ := foldl_fightStep_good fv (tf.1, tf.2, false) h1 h2
    exact ih (procFight tf fv) g1 g2

/-- Helper: ranking and truncation preserve the accumulator invariant. -/
lemma rankTop_good (counts : List PlayerTop) (h : goodList counts) :
    goodList (rankTop counts) := by
  obtain ⟨h1, h2⟩ := h
  have hperm := List.perm_insertionSort ptGE counts
  have hsorted1 : ∀ p ∈ counts.insertionSort ptGE, p.Name ≠ "" ∧ 1 ≤ p.Value :=
    fun p hp => h1 p (hperm.mem_iff.mp hp)
  have hsorted2 : (counts.insertionSort ptGE).Pairwise fun a b => a.Name ≠ b.Name :=
    (hperm.pairwise_iff fun hab => Ne.symm hab).mpr h2
  constructor
  · intro p hp
    exact hsorted1 p ((List.take_sublist 5 _).subset hp)
  · exact List.Pairwise.sublist (List.take_sublist 5 _) hsorted2

/-- C10.  Every leaderboard entry returned by `TopDeathsForReport` has a
non-empty player name and a count of at least one, and each player appears
at most once per leaderboard. -/
theorem leaderboard_entries_spec (fights : List (List DeathEvent)) :
    (∀ p ∈ (TopDeathsForReport fights).TopDeaths, p.Name ≠ "" ∧ 1 ≤ p.Value) ∧
    (∀ p ∈ (TopDeathsForReport fights).TopFirstDeaths, p.Name ≠ "" ∧ 1 ≤ p.Value) ∧
    (TopDeathsForReport fights).TopDeaths.Pairwise (fun a b => a.Name ≠ b.Name) ∧
    (TopDeathsForReport fights).TopFirstDeaths.Pairwise (fun a b => a.Name ≠ b.Name) := by
  cases fights with
  | nil => simp [TopDeathsForReport]
  | cons fv fs =>
    obtain ⟨g1, g2⟩ := aggregate_good (fv :: fs)
    have r1 := rankTop_good _ g1
    have r2 := rankTop_good _ g2
    simp only [TopDeathsForReport, List.isEmpty_cons, Bool.false_eq_true, if_false]
    exact ⟨r1.1, r2.1, r1.2, r2.2⟩

/-- C10 witness: on a concrete report the top entry exists, carries a
non-empty name and a positive count. -/
theorem leaderboard_entries_spec_witness :
    (⟨"A", 2⟩ : PlayerTop) ∈ (TopDeathsForReport [[⟨1, "death", ⟨"A", "s"⟩⟩,
        ⟨2, "death", ⟨"B", "s"⟩⟩, ⟨3, "death", ⟨"A", "s"⟩⟩]]).TopDeaths ∧
    ((⟨"A", 2⟩ : PlayerTop).Name ≠ "" ∧ 1 ≤ (⟨"A", 2⟩ : PlayerTop).Value) := by
  refine ⟨by decide, ?_⟩
  exact (leaderboard_entries_spec [[⟨1, "death", ⟨"A", "s"⟩⟩,
    ⟨2, "death", ⟨"B", "s"⟩⟩, ⟨3, "death", ⟨"A", "s"⟩⟩]]).1 ⟨"A", 2⟩ (by decide)

end WLBot
